import Mathlib

/-!
Verification of the Skill Maker repository's document/artifact merge pipeline.

Text is modelled as `List Char` (one entry per Unicode code point, matching
Python's `str` indexing).  Each definition below is a direct translation of a
function of the repository's source files:

  - `parse_between`       : `skill_compiler.py` lines 42-48 (textually identical
                            copies appear in `scan_code.py` lines 75-81 and
                            `expert_interviewer.py` lines 136-142)
  - `update_skill_md`     : `scan_code.py` lines 168-186 (the pure text
                            transformation; file I/O stripped)
  - `update_manifest`     : `scan_code.py` lines 189-198
  - `applyManifestUpdates`: `expert_interviewer.py` lines 127-128
  - `run_interview`       : `expert_interviewer.py` lines 59-92
  - `interviewer_main_generates` : the guard of `expert_interviewer.py` line 156
  - `scan_tools`          : `skill_compiler.py` lines 73-106
  - `generate_tool_schema`: `skill_compiler.py` lines 132-137 (decode part)
  - `update_manifest_tools`: `skill_compiler.py` lines 148-156
  - `compiler_main`       : `skill_compiler.py` lines 159-186

External collaborators (the Anthropic client, `ast`, `json`) are modelled as
oracle parameters; file reads/writes become explicit values.
-/

/-- Text is a list of Unicode code points, as in Python `str`. -/
abbrev Str := List Char

/-- The ASCII whitespace characters stripped by Python's `str.rstrip()` /
`str.strip()` (space, tab, LF, VT, FF, CR).  Python also strips some further
Unicode whitespace; none of it occurs in this development. -/
def isSpace (c : Char) : Bool :=
  c.toNat = 32 || c.toNat = 9 || c.toNat = 10 || c.toNat = 13 ||
  c.toNat = 11 || c.toNat = 12

/-- Python `str.rstrip()` with no arguments: remove trailing whitespace. -/
def rstrip (l : Str) : Str :=
  (l.reverse.dropWhile isSpace).reverse

/-- Python `str.strip()` with no arguments: remove leading and trailing
whitespace. -/
def pyStrip (l : Str) : Str :=
  rstrip (l.dropWhile isSpace)

/-- Length of the run of trailing whitespace of `l` (the amount that
`rstrip` removes). -/
def trailingSpaceCount (l : Str) : Nat :=
  (l.reverse.takeWhile isSpace).length

/-- Python `text.find(pat)`: index of the first occurrence of `pat` in `t`
(`none` for Python's `-1`). -/
def findSub : Str → Str → Option Nat
  | [], p => if p.isPrefixOf ([] : Str) then some 0 else none
  | c :: t, p =>
    if p.isPrefixOf (c :: t) then some 0
    else (findSub t p).map (· + 1)

/-- Python `text.find(pat, k)`: index of the first occurrence of `pat` in `t`
at position `k` or later. -/
def findSubFrom (t : Str) (p : Str) (k : Nat) : Option Nat :=
  (findSub (t.drop k) p).map (· + k)

/-- Python `pat in text` (substring containment). -/
def hasSub (t : Str) (p : Str) : Bool :=
  (findSub t p).isSome

/-- `pat` occurs in `t` at position `k`. -/
def matchesAt (t : Str) (p : Str) (k : Nat) : Bool :=
  p.isPrefixOf (t.drop k)

/-- Python truthiness of an optional string: `None` and `""` are falsy,
any non-empty string is truthy. -/
def pyTruthy : Option Str → Bool
  | none => false
  | some s => !s.isEmpty

/-- Python `str.lower()` (ASCII range; the repository only compares against
the ASCII tokens `quit` / `exit`). -/
def pyLower (l : Str) : Str :=
  l.map Char.toLower

/-- Python `s.endswith(suffix)`. -/
def pyEndsWith (l : Str) (s : Str) : Bool :=
  s.isSuffixOf l

/-- Python string comparison `a <= b`: lexicographic by code point. -/
def lexLeB : Str → Str → Bool
  | [], _ => true
  | _ :: _, [] => false
  | a :: as, b :: bs =>
    if a.toNat < b.toNat then true
    else if b.toNat < a.toNat then false
    else lexLeB as bs

/-- `lexLeB` as a relation, for use with `List.insertionSort`. -/
def lexLe (a b : Str) : Prop := lexLeB a b = true

instance : DecidableRel lexLe := fun a b =>
  inferInstanceAs (Decidable (lexLeB a b = true))

/-- `parse_between` of `skill_compiler.py` lines 42-48 (identical copies in
`scan_code.py` and `expert_interviewer.py`):

    start = text.find(start_marker)
    end = text.find(end_marker)
    if start == -1 or end == -1:
        return None
    return text[start + len(start_marker):end]

Python slicing `text[a:b]` with `0 ≤ a`, `0 ≤ b` is `(text.drop a).take (b - a)`
(empty when `b ≤ a`, clamped at the end of the string). -/
def parse_between (text : Str) (start_marker : Str) (end_marker : Str) :
    Option Str :=
  match findSub text start_marker, findSub text end_marker with
  | some s, some e =>
    some ((text.drop (s + start_marker.length)).take (e - (s + start_marker.length)))
  | _, _ => none

/-! ## `scan_code.py` : Document Section Editor and append-if-absent merge -/

/-- The section heading targeted by `update_skill_md` (`scan_code.py` line 174). -/
def coreMarker : Str := "## 核心能力".toList

/-- The next-heading pattern searched by `update_skill_md` (`scan_code.py`
line 180). -/
def nextMarker : Str := "\n## ".toList

/-- `insert_pos` of `scan_code.py` lines 180-181: the index of the next
occurrence of `"\n## "` after the targeted heading, or end-of-document. -/
def insertPos (content : Str) (idx : Nat) : Nat :=
  match findSubFrom content nextMarker (idx + coreMarker.length) with
  | some j => j
  | none => content.length

/-- The pure text transformation of `update_skill_md`, `scan_code.py`
lines 168-186 (reading and rewriting `SKILL.md` stripped):

    marker = "## 核心能力"
    idx = content.find(marker)
    if idx == -1:
        content += f"\n## 核心能力\n{skill_doc}\n"
    else:
        next_section = content.find("\n## ", idx + len(marker))
        insert_pos = next_section if next_section != -1 else len(content)
        content = content[:insert_pos].rstrip() + "\n" + skill_doc + "\n\n" + content[insert_pos:]
-/
def update_skill_md (content : Str) (skill_doc : Str) : Str :=
  match findSub content coreMarker with
  | none => content ++ ("\n".toList ++ coreMarker ++ "\n".toList ++ skill_doc ++ "\n".toList)
  | some idx =>
    let p := insertPos content idx
    rstrip (content.take p) ++ "\n".toList ++ skill_doc ++ "\n\n".toList ++ content.drop p

/-- The manifest as seen by `scan_code.update_manifest`: only the `tools`
key matters; `none` models a JSON object without a `"tools"` key. -/
structure ScanManifest where
  tools : Option (List Str)
deriving DecidableEq

/-- `update_manifest` of `scan_code.py` lines 189-198 (file I/O stripped):

    if func_name not in manifest.get("tools", []):
        manifest.setdefault("tools", []).append(func_name)
-/
def update_manifest (m : ScanManifest) (func_name : Str) : ScanManifest :=
  if func_name ∈ m.tools.getD [] then m
  else { m with tools := some (m.tools.getD [] ++ [func_name]) }

/-! ## `expert_interviewer.py` : interview state machine and manifest merge -/

/-- A message role of the conversation (`"user"` is the human respondent,
`"assistant"` the elicitor). -/
inductive Role where
  | user
  | assistant
deriving DecidableEq

/-- One turn of the conversation (`{"role": ..., "content": ...}`). -/
structure Msg where
  role : Role
  content : Str
deriving DecidableEq

/-- The synthetic seed turn `{"role": "user", "content": "请开始访谈。"}`
(`expert_interviewer.py` lines 70 and 77). -/
def seedMsg : Msg := ⟨Role.user, "请开始访谈。".toList⟩

/-- The end-of-interview sentinel (`expert_interviewer.py` line 81). -/
def sentinel : Str := "[访谈结束]".toList

/-- The cancellation check of `expert_interviewer.py` line 86:
`user_input.lower() in ("quit", "exit")` applied to the already-stripped
input. -/
def isQuit (u : Str) : Bool :=
  pyLower u == "quit".toList || pyLower u == "exit".toList

/-- `run_interview` of `expert_interviewer.py` lines 59-92.  The generative
service is modelled as the stream `responses` of texts it returns (one per
`client.messages.create` call) and the human as the stream `inputs` of raw
lines; `msgs` is the accumulated `messages` list.  When a stream is exhausted
where the Python code would block forever on the service or on `input()`,
the result is `none`.

    while True:
        response = client.messages.create(..., messages=messages or [seed])
        assistant_text = response.content[0].text
        messages.append({"role": "assistant", "content": assistant_text})
        if len(messages) == 1:
            messages.insert(0, {"role": "user", "content": "请开始访谈。"})
        if "[访谈结束]" in assistant_text: break
        user_input = input("您的回答: ").strip()
        if user_input.lower() in ("quit", "exit"): break
        messages.append({"role": "user", "content": user_input})
    return messages
-/
def run_interview : List Str → List Str → List Msg → Option (List Msg)
  | [], _, _ => none
  | r :: rs, inputs, msgs =>
    let m1 := msgs ++ [⟨Role.assistant, r⟩]
    let m2 := if m1.length = 1 then seedMsg :: m1 else m1
    if hasSub r sentinel then some m2
    else
      match inputs with
      | [] => none
      | u :: us =>
        let u' := pyStrip u
        if isQuit u' then some m2
        else run_interview rs us (m2 ++ [⟨Role.user, u'⟩])

/-- The guard of `expert_interviewer.py` line 156 deciding whether
`generate_documents` is invoked: `if len(messages) >= 2`. -/
def interviewer_main_generates (messages : List Msg) : Bool :=
  decide (2 ≤ messages.length)

/-- The number of respondent (human, role `"user"`) turns in the
conversation, the synthetic seed turn included. -/
def respondentTurns (messages : List Msg) : Nat :=
  (messages.filter (fun m => m.role == Role.user)).length

/-- The two manifest fields touched by `generate_documents`
(`expert_interviewer.py` lines 127-128). -/
structure IntManifest where
  description : Str
  tags : List Str
deriving DecidableEq

/-- The decoded manifest-update record: `none` models a JSON object without
the corresponding key (so that Python's `updates.get(key, default)` falls
back to the default). -/
structure ManifestUpdates where
  description : Option Str
  tags : Option (List Str)
deriving DecidableEq

/-- The overwrite-if-present manifest merge of `generate_documents`,
`expert_interviewer.py` lines 127-128 (file I/O stripped):

    manifest["description"] = updates.get("description", manifest["description"])
    manifest["tags"] = updates.get("tags", manifest["tags"])
-/
def applyManifestUpdates (m : IntManifest) (u : ManifestUpdates) : IntManifest :=
  { description := u.description.getD m.description,
    tags := u.tags.getD m.tags }

/-! ## `skill_compiler.py` : Static Tool Scanner and compilation orchestrator -/

/-- The Python `ast` module, used read-only by `scan_tools`, modelled as an
oracle: `parse` is `ast.parse` (`none` for a `SyntaxError`), `getDocstring`
is `ast.get_docstring(tree)`, and `runDocstring` is the docstring of the
first `FunctionDef` named `run` found by `ast.walk` (`none` if absent). -/
structure AstOracle (Tree : Type) where
  parse : Str → Option Tree
  getDocstring : Tree → Option Str
  runDocstring : Tree → Option Str

/-- One `tool_info` record built by `scan_tools` (`skill_compiler.py`
line 87). -/
structure ToolInfo where
  name : Str
  module_docstring : Option Str
  run_docstring : Option Str
  code : Str
deriving DecidableEq

/-- The `tools/` directory, as an association of file names to file
contents. -/
abbrev ToolsDir := List (Str × Str)

/-- Reading the file named `fn` of the directory (`skill_compiler.py`
lines 83-84; the file exists because its name came from `os.listdir`). -/
def fileContent (dir : ToolsDir) (fn : Str) : Str :=
  ((dir.find? (fun e => e.1 == fn)).map Prod.snd).getD []

/-- `"__init__.py"`. -/
def initFileName : Str := "__init__.py".toList

/-- `".py"`. -/
def pyExt : Str := ".py".toList

/-- The loop body of `scan_tools` over the sorted file-name listing
(`skill_compiler.py` lines 78-104):

    for filename in sorted(os.listdir(tools_dir)):
        if not filename.endswith(".py") or filename == "__init__.py":
            continue
        source = open(filepath).read()
        tool_name = filename[:-3]
        tool_info = {"name": tool_name, "module_docstring": None, "run_docstring": None, "code": source}
        try: tree = ast.parse(source)
        except SyntaxError: continue    # warning printed, scan continues
        tool_info["module_docstring"] = ast.get_docstring(tree)
        tool_info["run_docstring"] = <docstring of first FunctionDef named run>
        tools.append(tool_info)
-/
def scanLoop (Tree : Type) (ast : AstOracle Tree) (dir : ToolsDir) :
    List Str → List ToolInfo
  | [] => []
  | fn :: rest =>
    if !(pyEndsWith fn pyExt) || fn == initFileName then
      scanLoop Tree ast dir rest
    else
      let source := fileContent dir fn
      match ast.parse source with
      | none => scanLoop Tree ast dir rest
      | some tree =>
        { name := fn.take (fn.length - 3),
          module_docstring := ast.getDocstring tree,
          run_docstring := ast.runDocstring tree,
          code := source } :: scanLoop Tree ast dir rest

/-- `scan_tools` of `skill_compiler.py` lines 73-106: iterate over
`sorted(os.listdir(tools_dir))` (Python sorts strings lexicographically by
code point) with the loop body above. -/
def scan_tools (Tree : Type) (ast : AstOracle Tree) (dir : ToolsDir) :
    List ToolInfo :=
  scanLoop Tree ast dir (List.insertionSort lexLe (dir.map Prod.fst))

/-- The filter implemented by the two `continue` statements of the scan loop:
a file is kept iff it ends in `.py` and is not `__init__.py`. -/
def keepFile (fn : Str) : Bool :=
  pyEndsWith fn pyExt && !(fn == initFileName)

/-- What the scan produces for one kept file: `none` when `ast.parse`
raises `SyntaxError` (the file is skipped), otherwise the `tool_info`
record. -/
def scannedTool (Tree : Type) (ast : AstOracle Tree) (dir : ToolsDir)
    (fn : Str) : Option ToolInfo :=
  match ast.parse (fileContent dir fn) with
  | none => none
  | some tree =>
    some { name := fn.take (fn.length - 3),
           module_docstring := ast.getDocstring tree,
           run_docstring := ast.runDocstring tree,
           code := fileContent dir fn }

/-- `"---SCHEMA_START---"`. -/
def schemaStartMarker : Str := "---SCHEMA_START---".toList

/-- `"---SCHEMA_END---"`. -/
def schemaEndMarker : Str := "---SCHEMA_END---".toList

/-- The decode part of `generate_tool_schema`, `skill_compiler.py`
lines 132-137; `resp` is the text returned by the generative service and
`jsonLoads` is the `json.loads` oracle (`σ` is the type of one decoded
schema record):

    json_str = parse_between(result_text, "---SCHEMA_START---", "---SCHEMA_END---")
    if not json_str:
        return []
    return json.loads(json_str.strip())
-/
def generate_tool_schema (σ : Type) (resp : Str) (jsonLoads : Str → List σ) :
    List σ :=
  let json_str := parse_between resp schemaStartMarker schemaEndMarker
  if pyTruthy json_str then jsonLoads (pyStrip (json_str.getD []))
  else []

/-- The manifest as seen by `skill_compiler.py`: only the `tools` key is
touched by `update_manifest_tools`. -/
structure CompManifest where
  tools : List Str
deriving DecidableEq

/-- `update_manifest_tools` of `skill_compiler.py` lines 148-156 (full
resync; file I/O stripped): `manifest["tools"] = [t["name"] for t in tools]`. -/
def update_manifest_tools (m : CompManifest) (tools : List ToolInfo) :
    CompManifest :=
  { m with tools := tools.map ToolInfo.name }

/-- The observable outcome of one run of `skill_compiler.main`:
whether the generative service was invoked (`client.messages.create`),
the `tools_schema.json` artifact written (`none` = not written), the final
manifest state, and whether the zero-tools skip was reported. -/
structure CompileResult (σ : Type) where
  serviceCalled : Bool
  schemaWritten : Option (List σ)
  manifest : CompManifest
  reportedNoTools : Bool
deriving DecidableEq

/-- `main` of `skill_compiler.py` lines 159-186 (argument parsing and
directory validation stripped; they precede everything modelled here):

    skill_md = read_skill_md(skill_dir)
    tools = scan_tools(skill_dir)
    if not tools:
        print("tools/ 目录下没有找到工具文件（已排除 __init__.py）。")
        return
    client = Anthropic()
    schema = generate_tool_schema(client, skill_md, tools)
    if not schema:
        print("Schema 生成失败。")
        return
    write_schema_file(skill_dir, schema)
    update_manifest_tools(skill_dir, tools)

The generative service is the function `service` (called at most once, on
the prompt built from `skill_md` and the scanned tools; its text response
is all that matters here). -/
def compiler_main (Tree σ : Type) (ast : AstOracle Tree) (dir : ToolsDir)
    (skill_md : Str) (service : Str → List ToolInfo → Str)
    (jsonLoads : Str → List σ) (m : CompManifest) : CompileResult σ :=
  let tools := scan_tools Tree ast dir
  if tools.isEmpty then
    { serviceCalled := false, schemaWritten := none, manifest := m,
      reportedNoTools := true }
  else
    let resp := service skill_md tools
    let schema := generate_tool_schema σ resp jsonLoads
    if schema.isEmpty then
      { serviceCalled := true, schemaWritten := none, manifest := m,
        reportedNoTools := false }
    else
      { serviceCalled := true, schemaWritten := some schema,
        manifest := update_manifest_tools m tools, reportedNoTools := false }

/-! ## Characterization of `findSub` (Python `str.find`) -/

/-- `List.isPrefixOf` of the empty list holds only for the empty pattern. -/
theorem isPrefixOf_nil_right (p : Str) : p.isPrefixOf ([] : Str) = true ↔ p = [] := by
  cases p <;> simp [List.isPrefixOf]

/-- A successful `findSub` points at an occurrence, and at the first one. -/
theorem findSub_some (t : Str) : ∀ (p : Str) (i : Nat), findSub t p = some i →
    matchesAt t p i = true ∧ ∀ k, k < i → matchesAt t p k = false := by
  induction t with
  | nil =>
    intro p i h
    simp only [findSub] at h
    split at h
    · rename_i hp
      cases h
      refine ⟨hp, ?_⟩
      intro k hk
      omega
    · cases h
  | cons c t ih =>
    intro p i h
    simp only [findSub] at h
    split at h
    · rename_i hp
      cases h
      refine ⟨hp, ?_⟩
      intro k hk
      omega
    · rename_i hp
      rcases Option.map_eq_some'.mp h with ⟨i', hi', rfl⟩
      rcases ih p i' hi' with ⟨h1, h2⟩
      refine ⟨h1, ?_⟩
      intro k hk
      cases k with
      | zero => simpa [matchesAt] using Bool.eq_false_iff.mpr hp
      | succ k' =>
        have := h2 k' (by omega)
        simpa [matchesAt] using this

/-- A failed `findSub` means no occurrence anywhere. -/
theorem findSub_none (t : Str) : ∀ (p : Str), findSub t p = none →
    ∀ k, matchesAt t p k = false := by
  induction t with
  | nil =>
    intro p h k
    simp only [findSub] at h
    split at h
    · cases h
    · rename_i hp
      simp only [matchesAt, List.drop_nil]
      exact Bool.eq_false_iff.mpr hp
  | cons c t ih =>
    intro p h k
    simp only [findSub] at h
    split at h
    · cases h
    · rename_i hp
      have hrec : findSub t p = none := by
        cases hf : findSub t p with
        | none => rfl
        | some j => rw [hf] at h; cases h
      cases k with
      | zero => simpa [matchesAt] using Bool.eq_false_iff.mpr hp
      | succ k' => simpa [matchesAt] using ih p hrec k'

/-- If `pat` occurs somewhere, `findSub` succeeds. -/
theorem findSub_isSome_of_matches (t : Str) : ∀ (p : Str) (k : Nat),
    matchesAt t p k = true → (findSub t p).isSome := by
  intro p k h
  cases hf : findSub t p with
  | some i => rfl
  | none => rw [findSub_none t p hf k] at h; cases h

/-- `findSub` returns exactly the least occurrence position. -/
theorem findSub_eq_some_iff (t p : Str) (i : Nat) :
    findSub t p = some i ↔
      (matchesAt t p i = true ∧ ∀ k, k < i → matchesAt t p k = false) := by
  constructor
  · exact findSub_some t p i
  · rintro ⟨h1, h2⟩
    cases hf : findSub t p with
    | none => rw [findSub_none t p hf i] at h1; cases h1
    | some j =>
      rcases findSub_some t p j hf with ⟨g1, g2⟩
      have : i = j := by
        rcases Nat.lt_trichotomy i j with h | h | h
        · rw [g2 i h] at h1; cases h1
        · exact h
        · rw [h2 j h] at g1; cases g1
      rw [this]

/-- `findSub` fails exactly when there is no occurrence. -/
theorem findSub_eq_none_iff (t p : Str) :
    findSub t p = none ↔ ∀ k, matchesAt t p k = false := by
  constructor
  · exact findSub_none t p
  · intro h
    cases hf : findSub t p with
    | none => rfl
    | some i =>
      have := (findSub_some t p i hf).1
      rw [h i] at this
      cases this

/-- Occurrence positions never exceed the text length. -/
theorem findSub_le_length (t : Str) : ∀ (p : Str) (i : Nat),
    findSub t p = some i → i ≤ t.length := by
  induction t with
  | nil =>
    intro p i h
    simp only [findSub] at h
    split at h
    · cases h; simp
    · cases h
  | cons c t ih =>
    intro p i h
    simp only [findSub] at h
    split at h
    · cases h; simp
    · rcases Option.map_eq_some'.mp h with ⟨i', hi', rfl⟩
      have := ih p i' hi'
      simp only [List.length_cons]
      omega

/-- Shifting an occurrence across `List.drop`. -/
theorem matchesAt_drop (t p : Str) (k m : Nat) :
    matchesAt (t.drop k) p m = matchesAt t p (k + m) := by
  simp [matchesAt, List.drop_drop, Nat.add_comm]

/-- A successful `findSubFrom` points at an occurrence at or after the start
offset, and at the first such one. -/
theorem findSubFrom_some (t p : Str) (k j : Nat) (h : findSubFrom t p k = some j) :
    k ≤ j ∧ matchesAt t p j = true ∧
      ∀ m, k ≤ m → m < j → matchesAt t p m = false := by
  rcases Option.map_eq_some'.mp h with ⟨j', hj', rfl⟩
  rcases findSub_some _ p j' hj' with ⟨h1, h2⟩
  rw [matchesAt_drop] at h1
  refine ⟨by omega, by rwa [Nat.add_comm] at h1, ?_⟩
  intro m hm1 hm2
  have := h2 (m - k) (by omega)
  rw [matchesAt_drop] at this
  have hmk : k + (m - k) = m := by omega
  rwa [hmk] at this

/-- A failed `findSubFrom` means no occurrence at or after the offset. -/
theorem findSubFrom_none (t p : Str) (k : Nat) (h : findSubFrom t p k = none)
    (m : Nat) (hm : k ≤ m) : matchesAt t p m = false := by
  have hn : findSub (t.drop k) p = none := by
    cases hf : findSub (t.drop k) p with
    | none => rfl
    | some j => simp [findSubFrom, hf] at h
  have := findSub_none _ p hn (m - k)
  rw [matchesAt_drop] at this
  have hmk : k + (m - k) = m := by omega
  rwa [hmk] at this

/-- A successful `findSubFrom` on a non-empty pattern stays within the text. -/
theorem findSubFrom_le_length (t p : Str) (k j : Nat) (hp : p ≠ [])
    (h : findSubFrom t p k = some j) : j ≤ t.length := by
  rcases Option.map_eq_some'.mp h with ⟨j', hj', rfl⟩
  have hk : k ≤ t.length := by
    by_contra hk
    have hdrop : t.drop k = [] := List.drop_of_length_le (by omega)
    rw [hdrop] at hj'
    simp only [findSub] at hj'
    split at hj'
    · rename_i hpre
      exact hp ((isPrefixOf_nil_right p).mp hpre)
    · cases hj'
  have := findSub_le_length _ p j' hj'
  simp only [List.length_drop] at this
  omega

/-! ## Helper lemmas about prefixes and `rstrip` -/

/-- A prefix is never longer than the whole list. -/
theorem length_le_of_isPrefixOf : ∀ (p l : Str), p.isPrefixOf l = true →
    p.length ≤ l.length := by
  intro p
  induction p with
  | nil => intro l _; simp
  | cons c p ih =>
    intro l h
    cases l with
    | nil => simp [List.isPrefixOf] at h
    | cons d l =>
      simp only [List.isPrefixOf, Bool.and_eq_true] at h
      have := ih l h.2
      simp only [List.length_cons]
      omega

/-- Prefixes survive truncation past their length. -/
theorem isPrefixOf_take : ∀ (p l : Str) (m : Nat), p.isPrefixOf l = true →
    p.length ≤ m → p.isPrefixOf (l.take m) = true := by
  intro p
  induction p with
  | nil => intro l m _ _; simp [List.isPrefixOf]
  | cons c p ih =>
    intro l m h hm
    cases l with
    | nil => simp [List.isPrefixOf] at h
    | cons d l =>
      simp only [List.isPrefixOf, Bool.and_eq_true] at h
      simp only [List.length_cons] at hm
      cases m with
      | zero => omega
      | succ m' =>
        simp only [List.take_succ_cons, List.isPrefixOf, Bool.and_eq_true]
        exact ⟨h.1, ih l m' h.2 (by omega)⟩

/-- Every element of a prefix is an element of the list. -/
theorem mem_of_isPrefixOf : ∀ (p l : Str), p.isPrefixOf l = true →
    ∀ c, c ∈ p → c ∈ l := by
  intro p
  induction p with
  | nil => intro l _ c hc; cases hc
  | cons d p ih =>
    intro l h c hc
    cases l with
    | nil => simp [List.isPrefixOf] at h
    | cons e l =>
      simp only [List.isPrefixOf, Bool.and_eq_true, beq_iff_eq] at h
      rcases List.mem_cons.mp hc with rfl | hc
      · rw [h.1] at *
        exact List.mem_cons_self _ _
      · exact List.mem_cons_of_mem _ (ih l h.2 c hc)

/-- `dropWhile` stops inside the first block when it holds a failing
element. -/
theorem dropWhile_append_of_mem (q : Char → Bool) :
    ∀ (m n : Str), (∃ c ∈ m, q c = false) →
      List.dropWhile q (m ++ n) = List.dropWhile q m ++ n := by
  intro m
  induction m with
  | nil =>
    rintro n ⟨c, hc, _⟩
    cases hc
  | cons x m ih =>
    rintro n ⟨c, hc, hqc⟩
    by_cases hx : q x = true
    · have hcm : c ∈ m := by
        rcases List.mem_cons.mp hc with rfl | h
        · rw [hx] at hqc; cases hqc
        · exact h
      simp only [List.cons_append, List.dropWhile_cons, hx, if_true]
      exact ih n ⟨c, hcm, hqc⟩
    · have hx' : q x = false := Bool.eq_false_iff.mpr hx
      simp only [List.cons_append, List.dropWhile_cons, hx', Bool.false_eq_true,
        if_false]

/-- `rstrip` of a concatenation whose right block holds a non-whitespace
character strips only inside the right block. -/
theorem rstrip_append (A B : Str) (h : ∃ c ∈ B, isSpace c = false) :
    rstrip (A ++ B) = A ++ rstrip B := by
  rcases h with ⟨c, hc, hsc⟩
  simp only [rstrip, List.reverse_append]
  rw [dropWhile_append_of_mem isSpace B.reverse A.reverse
    ⟨c, List.mem_reverse.mpr hc, hsc⟩]
  simp [List.reverse_append]

/-- `rstrip` removes exactly the trailing whitespace run. -/
theorem rstrip_length (l : Str) :
    (rstrip l).length = l.length - trailingSpaceCount l := by
  have h : l.reverse.takeWhile isSpace ++ l.reverse.dropWhile isSpace
      = l.reverse := List.takeWhile_append_dropWhile ..
  have hlen := congrArg List.length h
  rw [List.length_append, List.length_reverse] at hlen
  simp only [rstrip, trailingSpaceCount, List.length_reverse]
  omega

/-- The trailing whitespace run is not longer than the string. -/
theorem trailingSpaceCount_le (l : Str) : trailingSpaceCount l ≤ l.length := by
  have h : l.reverse.takeWhile isSpace ++ l.reverse.dropWhile isSpace
      = l.reverse := List.takeWhile_append_dropWhile ..
  have hlen := congrArg List.length h
  rw [List.length_append, List.length_reverse] at hlen
  simp only [trailingSpaceCount]
  omega

/-! ## Bounds and decomposition for `update_skill_md` -/

/-- When the heading is present at `i`, the insertion point lies after the
heading and within the document. -/
theorem insertPos_bounds (content : Str) (i : Nat)
    (h : findSub content coreMarker = some i) :
    i + coreMarker.length ≤ insertPos content i ∧
      insertPos content i ≤ content.length := by
  have hmatch := (findSub_some content coreMarker i h).1
  have hlen : i + coreMarker.length ≤ content.length := by
    simp only [matchesAt] at hmatch
    have h1 := length_le_of_isPrefixOf _ _ hmatch
    simp only [List.length_drop] at h1
    have h2 : coreMarker.length = 7 := by decide
    omega
  unfold insertPos
  cases hf : findSubFrom content nextMarker (i + coreMarker.length) with
  | none => exact ⟨hlen, Nat.le_refl _⟩
  | some j =>
    have h1 := (findSubFrom_some content nextMarker _ j hf).1
    have h2 := findSubFrom_le_length content nextMarker _ j (by decide) hf
    exact ⟨h1, h2⟩

/-- The heading itself sits between `i` and the insertion point, so it
survives the `rstrip` of the prefix. -/
theorem coreMarker_isPrefixOf_mid (content : Str) (i : Nat)
    (h : findSub content coreMarker = some i) :
    coreMarker.isPrefixOf ((content.take (insertPos content i)).drop i) = true := by
  have hmatch := (findSub_some content coreMarker i h).1
  simp only [matchesAt] at hmatch
  rcases insertPos_bounds content i h with ⟨hb1, _⟩
  rw [List.drop_take]
  exact isPrefixOf_take _ _ _ hmatch (by omega)

/-- Splice decomposition of the found-heading branch of `update_skill_md`:
the result is the untouched prefix up to the heading, a middle block, and
the untouched suffix from the insertion point on. -/
theorem update_skill_md_decomp (content doc : Str) (i : Nat)
    (h : findSub content coreMarker = some i) :
    update_skill_md content doc
      = content.take i
        ++ (rstrip ((content.take (insertPos content i)).drop i)
            ++ "\n".toList ++ doc ++ "\n\n".toList)
        ++ content.drop (insertPos content i) := by
  rcases insertPos_bounds content i h with ⟨hb1, hb2⟩
  have h7 : coreMarker.length = 7 := by decide
  set p := insertPos content i with hp
  have hsplit : content.take p
      = content.take i ++ (content.take p).drop i := by
    conv_lhs => rw [← List.take_append_drop i (content.take p)]
    rw [List.take_take, Nat.min_eq_left (by omega)]
  have hmem : ∃ c ∈ (content.take p).drop i, isSpace c = false := by
    refine ⟨'#', ?_, by decide⟩
    exact mem_of_isPrefixOf _ _ (coreMarker_isPrefixOf_mid content i h) '#'
      (by decide)
  have hr : rstrip (content.take p)
      = content.take i ++ rstrip ((content.take p).drop i) := by
    conv_lhs => rw [hsplit]
    exact rstrip_append _ _ hmem
  simp only [update_skill_md, h]
  rw [← hp, hr]
  simp [List.append_assoc]

/-! ## Claim C2 : frame property of the Document Section Editor -/

/-- C2: applying the Document Section Editor leaves every byte outside the
targeted insertion span unchanged.  When the heading occurs at `i`, the
result splices a middle block between the untouched prefix `content.take i`
and the untouched suffix `content.drop (insertPos content i)` (the bytes of
every other section, and hence their relative order, are preserved); when
the heading is absent the original document is preserved in full and a new
block is appended. -/
theorem claim_C2_frame (content doc : Str) :
    (∀ i, findSub content coreMarker = some i →
      ∃ M, update_skill_md content doc
        = content.take i ++ M ++ content.drop (insertPos content i)) ∧
    (findSub content coreMarker = none →
      ∃ M, update_skill_md content doc = content ++ M) := by
  constructor
  · intro i h
    exact ⟨_, update_skill_md_decomp content doc i h⟩
  · intro h
    exact ⟨"\n".toList ++ coreMarker ++ "\n".toList ++ doc ++ "\n".toList,
      by simp only [update_skill_md, h]⟩

/-- Witness for C2 at a concrete document whose targeted section is
followed by another section. -/
theorem claim_C2_frame_witness :
    ∃ M, update_skill_md "## 核心能力\nA\n\n## B\nC".toList "X".toList
      = ("## 核心能力\nA\n\n## B\nC".toList : Str).take 0 ++ M
        ++ ("## 核心能力\nA\n\n## B\nC".toList : Str).drop
            (insertPos "## 核心能力\nA\n\n## B\nC".toList 0) :=
  (claim_C2_frame "## 核心能力\nA\n\n## B\nC".toList "X".toList).1 0 (by decide)

/-! ## Claim C4 : insertion position of the Document Section Editor -/

/-- Counterexample to C4 as stated.  First input: the document
`"## 核心能力\nA\n# Top\nB"` contains a *higher*-level heading `# Top` after
the targeted section, yet the new content `X` ends up *after* it (the code
only searches for the same-level pattern `"\n## "`), refuting "immediately
before the next heading of the same or higher level".  Second input: in
`"## 核心能力\nA\n\n## B\n"` the inserted `X` follows the prior content `A`
after a single newline (`"A\nX"` occurs in the result and `"A\n\nX"` does
not), refuting "separated from the prior content by exactly one blank
line". -/
theorem claim_C4_counterexample :
    (findSub "## 核心能力\nA\n# Top\nB".toList coreMarker = some 0 ∧
     update_skill_md "## 核心能力\nA\n# Top\nB".toList "X".toList
       = "## 核心能力\nA\n# Top\nB\nX\n\n".toList ∧
     findSub "## 核心能力\nA\n# Top\nB\nX\n\n".toList "\n# Top".toList = some 9 ∧
     findSub "## 核心能力\nA\n# Top\nB\nX\n\n".toList "X".toList = some 18) ∧
    (update_skill_md "## 核心能力\nA\n\n## B\n".toList "X".toList
       = "## 核心能力\nA\nX\n\n\n## B\n".toList ∧
     hasSub "## 核心能力\nA\nX\n\n\n## B\n".toList "A\nX".toList = true ∧
     hasSub "## 核心能力\nA\nX\n\n\n## B\n".toList "A\n\nX".toList = false) := by
  decide

/-- C4 as amended: when the targeted heading occurs at `i`, the insertion
point `p` is the position of the *first* occurrence of the same-level
heading pattern `"\n## "` at or after the end of the targeted heading (a
higher-level `"# "` heading does not bound the section), or end-of-document
if there is none; the document becomes the right-stripped prefix up to `p`,
one newline (not a blank line), the new content, one blank line, then the
untouched remainder.  When the heading is absent, a new heading-plus-content
block is appended at the end. -/
theorem claim_C4_amended (content doc : Str) :
    (∀ i, findSub content coreMarker = some i →
      ∃ p, i + coreMarker.length ≤ p ∧ p ≤ content.length ∧
        ((matchesAt content nextMarker p = true ∧
           ∀ m, i + coreMarker.length ≤ m → m < p →
             matchesAt content nextMarker m = false) ∨
         (p = content.length ∧
           ∀ m, i + coreMarker.length ≤ m →
             matchesAt content nextMarker m = false)) ∧
        update_skill_md content doc
          = rstrip (content.take p) ++ "\n".toList ++ doc
            ++ "\n\n".toList ++ content.drop p) ∧
    (findSub content coreMarker = none →
      update_skill_md content doc
        = content ++ ("\n".toList ++ coreMarker ++ "\n".toList ++ doc
            ++ "\n".toList)) := by
  constructor
  · intro i h
    rcases insertPos_bounds content i h with ⟨hb1, hb2⟩
    refine ⟨insertPos content i, hb1, hb2, ?_, by simp only [update_skill_md, h]⟩
    unfold insertPos
    split
    · rename_i j hf
      left
      rcases findSubFrom_some content nextMarker _ j hf with ⟨_, h2, h3⟩
      exact ⟨h2, fun m hm1 hm2 => h3 m hm1 hm2⟩
    · rename_i hf
      exact Or.inr ⟨rfl, fun m hm => findSubFrom_none content nextMarker _ hf m hm⟩
  · intro h
    simp only [update_skill_md, h]

/-- Witness for the amended C4 at a concrete document with a same-level
following section. -/
theorem claim_C4_amended_witness :
    ∃ p, 0 + coreMarker.length ≤ p
      ∧ p ≤ ("## 核心能力\nA\n\n## B\n".toList : Str).length ∧
      ((matchesAt "## 核心能力\nA\n\n## B\n".toList nextMarker p = true ∧
         ∀ m, 0 + coreMarker.length ≤ m → m < p →
           matchesAt "## 核心能力\nA\n\n## B\n".toList nextMarker m = false) ∨
       (p = ("## 核心能力\nA\n\n## B\n".toList : Str).length ∧
         ∀ m, 0 + coreMarker.length ≤ m →
           matchesAt "## 核心能力\nA\n\n## B\n".toList nextMarker m = false)) ∧
      update_skill_md "## 核心能力\nA\n\n## B\n".toList "X".toList
        = rstrip (("## 核心能力\nA\n\n## B\n".toList : Str).take p)
          ++ "\n".toList ++ "X".toList ++ "\n\n".toList
          ++ ("## 核心能力\nA\n\n## B\n".toList : Str).drop p :=
  (claim_C4_amended "## 核心能力\nA\n\n## B\n".toList "X".toList).1 0 (by decide)

/-! ## Claim C7 : length behaviour of the Document Section Editor -/

/-- Counterexample to C7 as stated: the document `"## 核心能力\n\n\n\n\n"`
(length 12) contains the target heading and the new content `"X"` is
non-empty, yet the result `"## 核心能力\nX\n\n"` has length 11 — the
`rstrip` of the prefix removed five trailing newlines while the insertion
added only four characters, so the length strictly *decreases*. -/
theorem claim_C7_counterexample :
    findSub "## 核心能力\n\n\n\n\n".toList coreMarker = some 0 ∧
    ("X".toList : Str) ≠ [] ∧
    (update_skill_md "## 核心能力\n\n\n\n\n".toList "X".toList).length = 11 ∧
    ("## 核心能力\n\n\n\n\n".toList : Str).length = 12 ∧
    ¬ ("## 核心能力\n\n\n\n\n".toList : Str).length
        < (update_skill_md "## 核心能力\n\n\n\n\n".toList "X".toList).length := by
  decide

/-- C7 as amended: when the document contains the target heading at `i`,
the edit changes the length by exactly `doc.length + 3` minus the length of
the trailing-whitespace run that `rstrip` removes before the insertion
point; in particular, for non-empty content the length strictly increases
whenever that run is at most `doc.length + 2` characters (content
accumulates, it is never replaced — but a section padded with more trailing
whitespace than that can shrink the document). -/
theorem claim_C7_amended (content doc : Str) (i : Nat)
    (h : findSub content coreMarker = some i) :
    (update_skill_md content doc).length
      = content.length + doc.length + 3
        - trailingSpaceCount (content.take (insertPos content i)) ∧
    (doc ≠ [] →
      trailingSpaceCount (content.take (insertPos content i)) ≤ doc.length + 2 →
      content.length < (update_skill_md content doc).length) := by
  rcases insertPos_bounds content i h with ⟨hb1, hb2⟩
  have hup : update_skill_md content doc
      = rstrip (content.take (insertPos content i)) ++ "\n".toList ++ doc
        ++ "\n\n".toList ++ content.drop (insertPos content i) := by
    simp only [update_skill_md, h]
  have hn1 : ("\n".toList : Str).length = 1 := rfl
  have hn2 : ("\n\n".toList : Str).length = 2 := rfl
  have htk : (content.take (insertPos content i)).length = insertPos content i := by
    rw [List.length_take]
    omega
  have hks := trailingSpaceCount_le (content.take (insertPos content i))
  rw [htk] at hks
  have hrl := rstrip_length (content.take (insertPos content i))
  rw [htk] at hrl
  have hlen : (update_skill_md content doc).length
      = (insertPos content i - trailingSpaceCount (content.take (insertPos content i)))
        + 1 + doc.length + 2 + (content.length - insertPos content i) := by
    rw [hup]
    simp only [List.length_append, List.length_drop, hn1, hn2, hrl]
    try omega
  constructor
  · rw [hlen]
    omega
  · intro _ hbound
    rw [hlen]
    omega

/-- Witness for the amended C7: a section with no trailing whitespace run
strictly grows. -/
theorem claim_C7_amended_witness :
    ("## 核心能力\nA".toList : Str).length
      < (update_skill_md "## 核心能力\nA".toList "X".toList).length :=
  (claim_C7_amended "## 核心能力\nA".toList "X".toList 0 (by decide)).2
    (by decide) (by decide)

/-! ## Claim C5 : first-occurrence semantics of `parse_between` -/

/-- C5: `parse_between` returns the substring strictly between the first
occurrence of the start marker and the first occurrence of the end marker
(`(text.drop (i + s.length)).take (j - (i + s.length))` where `i` and `j`
are the least occurrence positions), returns `none` exactly when either
marker is missing from the text, and ignores any later occurrence of either
marker (the result depends only on the least occurrence positions). -/
theorem claim_C5_first_occurrence (text s e : Str) :
    (parse_between text s e = none ↔
      ((∀ k, matchesAt text s k = false) ∨ (∀ k, matchesAt text e k = false))) ∧
    (∀ i j,
      (matchesAt text s i = true ∧ ∀ m, m < i → matchesAt text s m = false) →
      (matchesAt text e j = true ∧ ∀ m, m < j → matchesAt text e m = false) →
      parse_between text s e
        = some ((text.drop (i + s.length)).take (j - (i + s.length)))) := by
  constructor
  · constructor
    · intro h
      cases hs : findSub text s with
      | none => exact Or.inl (findSub_none text s hs)
      | some i =>
        cases he : findSub text e with
        | none => exact Or.inr (findSub_none text e he)
        | some j =>
          simp only [parse_between, hs, he] at h
          exact Option.noConfusion h
    · rintro (h | h)
      · have hs : findSub text s = none := (findSub_eq_none_iff text s).mpr h
        simp only [parse_between, hs]
      · have he : findSub text e = none := (findSub_eq_none_iff text e).mpr h
        cases hs : findSub text s <;> simp only [parse_between, hs, he]
  · rintro i j ⟨hi1, hi2⟩ ⟨hj1, hj2⟩
    have hs : findSub text s = some i :=
      (findSub_eq_some_iff text s i).mpr ⟨hi1, hi2⟩
    have he : findSub text e = some j :=
      (findSub_eq_some_iff text e j).mpr ⟨hj1, hj2⟩
    simp only [parse_between, hs, he]

/-- Witness for C5 at a concrete extraction. -/
theorem claim_C5_witness :
    parse_between "x[hi]y".toList "[".toList "]".toList = some "hi".toList := by
  have h := (claim_C5_first_occurrence "x[hi]y".toList "[".toList "]".toList).2
    1 4 ⟨by decide, by decide⟩ ⟨by decide, by decide⟩
  exact h

/-! ## Claim C10 : overlapping markers give the empty, falsy extraction -/

/-- C10: when both markers are present but the first occurrence of the end
marker ends at or before the end of the first occurrence of the start
marker, `parse_between` returns the empty string (`some []`), not `none`;
and under Python truthiness (which every caller applies to the result) this
is indistinguishable from an absent block. -/
theorem claim_C10_overlap (text s e : Str) (i j : Nat)
    (hs : findSub text s = some i) (he : findSub text e = some j)
    (hle : j + e.length ≤ i + s.length) :
    parse_between text s e = some [] ∧
    pyTruthy (parse_between text s e) = pyTruthy none := by
  have h1 : parse_between text s e
      = some ((text.drop (i + s.length)).take (j - (i + s.length))) := by
    simp only [parse_between, hs, he]
  have h2 : j - (i + s.length) = 0 := by omega
  rw [h2, List.take_zero] at h1
  exact ⟨h1, by rw [h1]; rfl⟩

/-- Witness for C10: in `"AB"` the start marker `"AB"` is found at 0 and the
end marker `"A"` at 0, whose end (1) precedes the start marker's end (2). -/
theorem claim_C10_overlap_witness :
    parse_between "AB".toList "AB".toList "A".toList = some [] ∧
    pyTruthy (parse_between "AB".toList "AB".toList "A".toList)
      = pyTruthy none :=
  claim_C10_overlap "AB".toList "AB".toList "A".toList 0 0
    (by decide) (by decide) (by decide)

/-! ## Claim C1 : overwrite-if-present manifest merge -/

/-- Counterexample to C1 as stated: the decoded update record supplies an
*empty* description (`some []`), and the merge nevertheless overwrites the
existing description `"old"` with the empty value instead of retaining it. -/
theorem claim_C1_counterexample :
    (⟨some [], none⟩ : ManifestUpdates).description = some [] ∧
    (applyManifestUpdates ⟨"old".toList, []⟩ ⟨some [], none⟩).description = [] ∧
    (applyManifestUpdates ⟨"old".toList, []⟩ ⟨some [], none⟩).description
      ≠ ("old".toList : Str) := by
  decide

/-- C1 as amended: the merge replaces `description` and `tags` wholesale
whenever the decoded update record contains the corresponding key — even
with an empty value; the existing manifest value is retained only when the
key is absent. -/
theorem claim_C1_amended (m : IntManifest) (u : ManifestUpdates) :
    ((applyManifestUpdates m u).description
      = match u.description with
        | some d => d
        | none => m.description) ∧
    ((applyManifestUpdates m u).tags
      = match u.tags with
        | some t => t
        | none => m.tags) := by
  cases u with
  | mk d t => cases d <;> cases t <;> simp [applyManifestUpdates]

/-! ## Claim C6 : idempotence of the append-if-absent merge -/

/-- One merge makes the tool present. -/
theorem update_manifest_mem (m : ScanManifest) (T : Str) :
    T ∈ (update_manifest m T).tools.getD [] := by
  unfold update_manifest
  split
  · assumption
  · simp

/-- A merge of an already-present tool changes nothing. -/
theorem update_manifest_fixed (m : ScanManifest) (T : Str)
    (h : T ∈ m.tools.getD []) : update_manifest m T = m := by
  simp [update_manifest, h]

/-- In a duplicate-free list, a member is counted exactly once. -/
theorem count_eq_one_of_mem_nodup :
    ∀ (l : List Str) (a : Str), l.Nodup → a ∈ l → l.count a = 1 := by
  intro l
  induction l with
  | nil => intro a _ h; cases h
  | cons x xs ih =>
    intro a hd hm
    rcases List.nodup_cons.mp hd with ⟨hx, hxs⟩
    rcases List.mem_cons.mp hm with rfl | hm
    · rw [List.count_cons_self, List.count_eq_zero_of_not_mem hx]
    · have hne : a ≠ x := fun h => hx (h ▸ hm)
      rw [List.count_cons_of_ne hne, ih a hxs hm]

/-- C6: starting from a manifest whose tools list has no duplicates,
applying the append-if-absent merge of a tool name `T` any positive number
of times yields a tools list that counts `T` exactly once; the resulting
list is the original one, or the original one with `T` appended at the end
(all pre-existing entries and their order preserved); and one further merge
changes nothing (idempotence). -/
theorem claim_C6_append_absent (m : ScanManifest) (T : Str) (n : Nat)
    (hn : 1 ≤ n) (hd : (m.tools.getD []).Nodup) :
    (((fun x => update_manifest x T)^[n] m).tools.getD []).count T = 1 ∧
    ((((fun x => update_manifest x T)^[n] m).tools.getD []
        = m.tools.getD []) ∨
     (((fun x => update_manifest x T)^[n] m).tools.getD []
        = m.tools.getD [] ++ [T])) ∧
    update_manifest ((fun x => update_manifest x T)^[n] m) T
      = (fun x => update_manifest x T)^[n] m := by
  have hfix : ∀ k : Nat, (fun x => update_manifest x T)^[k] (update_manifest m T)
      = update_manifest m T := by
    intro k
    induction k with
    | zero => rfl
    | succ k ih =>
      rw [Function.iterate_succ_apply', ih]
      exact update_manifest_fixed _ T (update_manifest_mem m T)
  have hiter : (fun x => update_manifest x T)^[n] m = update_manifest m T := by
    obtain ⟨k, rfl⟩ : ∃ k, n = k + 1 := ⟨n - 1, by omega⟩
    rw [Function.iterate_succ_apply]
    exact hfix k
  rw [hiter]
  by_cases hmem : T ∈ m.tools.getD []
  · rw [update_manifest_fixed m T hmem]
    exact ⟨count_eq_one_of_mem_nodup _ T hd hmem, Or.inl rfl,
      update_manifest_fixed m T hmem⟩
  · have htools : (update_manifest m T).tools.getD []
        = m.tools.getD [] ++ [T] := by
      simp [update_manifest, hmem]
    refine ⟨?_, Or.inr htools,
      update_manifest_fixed _ T (update_manifest_mem m T)⟩
    rw [htools, List.count_append, List.count_eq_zero_of_not_mem hmem]
    simp

/-- Witness for C6: merging `"b"` twice into a manifest with tools
`["a"]`. -/
theorem claim_C6_witness :
    (((fun x => update_manifest x "b".toList)^[2]
        ⟨some ["a".toList]⟩).tools.getD []).count "b".toList = 1 ∧
    ((((fun x => update_manifest x "b".toList)^[2]
        ⟨some ["a".toList]⟩).tools.getD []
        = (some ["a".toList] : Option (List Str)).getD []) ∨
     (((fun x => update_manifest x "b".toList)^[2]
        ⟨some ["a".toList]⟩).tools.getD []
        = (some ["a".toList] : Option (List Str)).getD [] ++ ["b".toList])) ∧
    update_manifest ((fun x => update_manifest x "b".toList)^[2]
        ⟨some ["a".toList]⟩) "b".toList
      = (fun x => update_manifest x "b".toList)^[2] ⟨some ["a".toList]⟩ :=
  claim_C6_append_absent ⟨some ["a".toList]⟩ "b".toList 2
    (by decide) (by decide)

/-! ## Claim C3 : the insufficient-content guard of the interviewer -/

/-- C3 is violated by the code: when the very first elicitor response
already contains the end-of-interview sentinel (and the human never typed
anything), `run_interview` returns just the synthetic seed turn and that
one elicitor turn.  The conversation contains no respondent turn beyond
the seed (`respondentTurns = 1`), yet the guard `len(messages) >= 2` of
`main` is satisfied, so `generate_documents` is invoked rather than the
"访谈内容不足" (insufficient content) skip branch — which is in fact
unreachable, since the returned list always holds at least the seed and
one elicitor turn. -/
theorem claim_C3_divergence :
    run_interview ["我了解了，信息已足够。[访谈结束]".toList] [] []
      = some [seedMsg,
          ⟨Role.assistant, "我了解了，信息已足够。[访谈结束]".toList⟩] ∧
    interviewer_main_generates
      [seedMsg, ⟨Role.assistant, "我了解了，信息已足够。[访谈结束]".toList⟩]
      = true ∧
    respondentTurns
      [seedMsg, ⟨Role.assistant, "我了解了，信息已足够。[访谈结束]".toList⟩]
      = 1 := by
  refine ⟨?_, by decide, by decide⟩
  decide

/-! ## Claim C8 : schema compilation is skipped on zero scanned tools -/

/-- C8: whenever the static scan of the tools directory yields zero tool
modules, `skill_compiler.main` makes no generative-service call, writes no
schema artifact, leaves the manifest unmodified, and reports the skip —
for every possible service and `json.loads` behaviour. -/
theorem claim_C8_zero_tools (Tree σ : Type) (ast : AstOracle Tree)
    (dir : ToolsDir) (skill_md : Str) (service : Str → List ToolInfo → Str)
    (jsonLoads : Str → List σ) (m : CompManifest)
    (h : scan_tools Tree ast dir = []) :
    compiler_main Tree σ ast dir skill_md service jsonLoads m
      = { serviceCalled := false, schemaWritten := none, manifest := m,
          reportedNoTools := true } := by
  simp only [compiler_main, h, List.isEmpty_nil, if_true]

/-- Witness for C8: an empty tools directory. -/
theorem claim_C8_zero_tools_witness :
    compiler_main Unit Unit ⟨fun _ => none, fun _ => none, fun _ => none⟩ []
      [] (fun _ _ => []) (fun _ => []) ⟨[]⟩
      = { serviceCalled := false, schemaWritten := none, manifest := ⟨[]⟩,
          reportedNoTools := true } :=
  claim_C8_zero_tools Unit Unit ⟨fun _ => none, fun _ => none, fun _ => none⟩
    [] [] (fun _ _ => []) (fun _ => []) ⟨[]⟩ (by decide)

/-! ## Claim C9 : the static tool scanner -/

/-- The two `continue` conditions of the scan loop are the negation of
`keepFile`. -/
theorem skipCond_eq_not_keepFile (fn : Str) :
    (!(pyEndsWith fn pyExt) || fn == initFileName) = !(keepFile fn) := by
  unfold keepFile
  cases pyEndsWith fn pyExt <;> cases fn == initFileName <;> rfl

/-- `lexLeB` is total. -/
theorem lexLeB_total : ∀ a b : Str, lexLeB a b = true ∨ lexLeB b a = true := by
  intro a
  induction a with
  | nil => intro b; exact Or.inl rfl
  | cons x xs ih =>
    intro b
    cases b with
    | nil => exact Or.inr rfl
    | cons y ys =>
      by_cases h1 : x.toNat < y.toNat
      · left
        simp [lexLeB, h1]
      · by_cases h2 : y.toNat < x.toNat
        · right
          simp [lexLeB, h2]
        · rcases ih ys with h | h
          · left
            simp [lexLeB, h1, h2, h]
          · right
            simp [lexLeB, h1, h2, h]

/-- `lexLeB` is transitive. -/
theorem lexLeB_trans : ∀ a b c : Str, lexLeB a b = true → lexLeB b c = true →
    lexLeB a c = true := by
  intro a
  induction a with
  | nil => intro b c _ _; rfl
  | cons x xs ih =>
    intro b c hab hbc
    cases b with
    | nil => simp [lexLeB] at hab
    | cons y ys =>
      cases c with
      | nil => simp [lexLeB] at hbc
      | cons z zs =>
        by_cases h1 : x.toNat < y.toNat
        · by_cases h2 : y.toNat < z.toNat
          · have h3 : x.toNat < z.toNat := by omega
            simp [lexLeB, h3]
          · by_cases h2' : z.toNat < y.toNat
            · simp [lexLeB, h2, h2'] at hbc
            · have h3 : x.toNat < z.toNat := by omega
              simp [lexLeB, h3]
        · by_cases h1' : y.toNat < x.toNat
          · simp [lexLeB, h1, h1'] at hab
          · have hxy : lexLeB xs ys = true := by
              simpa [lexLeB, h1, h1'] using hab
            by_cases h2 : y.toNat < z.toNat
            · have h3 : x.toNat < z.toNat := by omega
              simp [lexLeB, h3]
            · by_cases h2' : z.toNat < y.toNat
              · simp [lexLeB, h2, h2'] at hbc
              · have hyz : lexLeB ys zs = true := by
                  simpa [lexLeB, h2, h2'] using hbc
                have h3 : ¬ x.toNat < z.toNat := by omega
                have h3' : ¬ z.toNat < x.toNat := by omega
                simpa [lexLeB, h3, h3'] using ih ys zs hxy hyz

/-- The scan loop is the composition of the keep-filter with the per-file
parse-or-skip map. -/
theorem scanLoop_eq_filter_filterMap (Tree : Type) (ast : AstOracle Tree)
    (dir : ToolsDir) : ∀ L : List Str, scanLoop Tree ast dir L
      = (L.filter keepFile).filterMap (scannedTool Tree ast dir) := by
  intro L
  induction L with
  | nil => rfl
  | cons fn rest ih =>
    cases hk : keepFile fn with
    | false =>
      have hskip : (!(pyEndsWith fn pyExt) || fn == initFileName) = true := by
        rw [skipCond_eq_not_keepFile, hk]
        rfl
      simp [scanLoop, hskip, List.filter_cons, hk, ih]
    | true =>
      have hskip : (!(pyEndsWith fn pyExt) || fn == initFileName) = false := by
        rw [skipCond_eq_not_keepFile, hk]
        rfl
      cases hp : ast.parse (fileContent dir fn) with
      | none =>
        simp [scanLoop, hskip, List.filter_cons, hk, List.filterMap_cons,
          scannedTool, hp, ih]
      | some tree =>
        simp [scanLoop, hskip, List.filter_cons, hk, List.filterMap_cons,
          scannedTool, hp, ih]

/-- C9: the Static Tool Scanner processes exactly the `.py` files other
than `__init__.py` (the `keepFile` filter), taken from the directory
listing sorted lexicographically by file name (and the sorted listing is
indeed `lexLe`-sorted); each kept file contributes one `ToolInfo` whose
identity is the file name without its `.py` extension, except that a file
the `ast` oracle fails to parse is dropped (`scannedTool` returns `none`
for it) without disturbing the scan of the remaining files. -/
theorem claim_C9_scan (Tree : Type) (ast : AstOracle Tree) (dir : ToolsDir) :
    scan_tools Tree ast dir
      = ((List.insertionSort lexLe (dir.map Prod.fst)).filter
          keepFile).filterMap (scannedTool Tree ast dir) ∧
    List.Sorted lexLe (List.insertionSort lexLe (dir.map Prod.fst)) := by
  haveI : IsTotal Str lexLe := ⟨fun a b => lexLeB_total a b⟩
  haveI : IsTrans Str lexLe := ⟨fun a b c => lexLeB_trans a b c⟩
  exact ⟨scanLoop_eq_filter_filterMap Tree ast dir _,
    List.sorted_insertionSort lexLe _⟩
